import Mathlib

/-!
Verification of the cellular-automaton core of the `second-game-of-life`
repository: the generation-stepping engine (`countNeighbors`,
`getNextGeneration`), the pattern-analysis metrics (`calculateDiversity`,
`calculateStability`, `calculateSimilarity`, historical matching) and the
multi-competitor evolution scheduler (`initializeCompetition`,
`runGeneration`).  Grids are bounded 2D boolean matrices; machine numbers
are modelled as `ℕ`/`ℤ`/`ℚ` (all quantities involved are exact in the
source's value range).
-/

namespace GoL

/-- A grid is a list of rows of boolean cells, indexed `[row][col]`
(`type Grid = boolean[][]`). -/
abbrev Grid := List (List Bool)

/-- Cell lookup `grid[x][y]`.  In the source every lookup is protected by a
`0 ≤ x < gridSize` bounds guard, so the `Int.toNat` clamping and the `false`
defaults are never observable there; they make the function total. -/
def cellAt (grid : Grid) (x y : ℤ) : Bool :=
  (grid.getD x.toNat []).getD y.toNat false

/-- The eight Moore offsets visited by the `for i in -1..1, for j in -1..1`
double loop, with `(0,0)` skipped by the `continue`. -/
def mooreOffsets : List (ℤ × ℤ) :=
  [(-1, -1), (-1, 0), (-1, 1), (0, -1), (0, 1), (1, -1), (1, 0), (1, 1)]

/-- `countNeighbors(grid, x, y, gridSize)`: sums the live cells among the
eight Moore neighbours, skipping positions outside `[0, gridSize)²`. -/
def countNeighbors (grid : Grid) (x y : ℤ) (gridSize : ℤ) : ℕ :=
  (mooreOffsets.map fun d =>
    let newX := x + d.1
    let newY := y + d.2
    if 0 ≤ newX ∧ newX < gridSize ∧ 0 ≤ newY ∧ newY < gridSize ∧ cellAt grid newX newY
    then 1 else 0).sum

/-- The numeric fields of a rule set (`survivalMin`, `survivalMax`,
`birthCount`); the presentation-only `name`/`color` fields of the
competition variant are omitted. -/
structure Rules where
  survivalMin : ℕ
  survivalMax : ℕ
  birthCount : ℕ
deriving DecidableEq, Repr

/-- `createEmptyGrid(size)`: a `size × size` all-dead grid. -/
def createEmptyGrid (size : ℕ) : Grid :=
  List.replicate size (List.replicate size false)

/-- A square grid built by filling every cell of an `n × n` matrix from a
cell function, the way the source's double `for` loops fill a freshly
allocated `createEmptyGrid(n)`. -/
def mkGrid (n : ℕ) (f : ℕ → ℕ → Bool) : Grid :=
  (List.range n).map fun x => (List.range n).map fun y => f x y

/-- `getNextGeneration(grid, rules, gridSize)`: the evolution step.  The
source allocates an empty `gridSize × gridSize` grid and fills every cell
in a double loop; `mkGrid` produces exactly that output grid. -/
def getNextGeneration (grid : Grid) (rules : Rules) (gridSize : ℕ) : Grid :=
  mkGrid gridSize fun x y =>
    let neighbors := countNeighbors grid x y gridSize
    if cellAt grid x y
    then decide (rules.survivalMin ≤ neighbors ∧ neighbors ≤ rules.survivalMax)
    else decide (neighbors = rules.birthCount)

/-! ### Basic lookup lemmas -/

theorem cellAt_mkGrid (n : ℕ) (f : ℕ → ℕ → Bool) (x y : ℤ)
    (hx0 : 0 ≤ x) (hxn : x < n) (hy0 : 0 ≤ y) (hyn : y < n) :
    cellAt (mkGrid n f) x y = f x.toNat y.toNat := by
  have hx : x.toNat < n := by omega
  have hy : y.toNat < n := by omega
  have h1 : (mkGrid n f).getD x.toNat [] = (List.range n).map (f x.toNat) := by
    rw [List.getD_eq_getElem?_getD, mkGrid, List.getElem?_map, List.getElem?_range hx]
    rfl
  have h2 : ((List.range n).map (f x.toNat)).getD y.toNat false = f x.toNat y.toNat := by
    rw [List.getD_eq_getElem?_getD, List.getElem?_map, List.getElem?_range hy]
    rfl
  rw [cellAt, h1, h2]

theorem cellAt_getNextGeneration (grid : Grid) (rules : Rules) (n : ℕ)
    (x y : ℤ) (hx0 : 0 ≤ x) (hxn : x < n) (hy0 : 0 ≤ y) (hyn : y < n) :
    cellAt (getNextGeneration grid rules n) x y =
      (if cellAt grid x.toNat y.toNat
       then decide (rules.survivalMin ≤ countNeighbors grid x.toNat y.toNat n ∧
              countNeighbors grid x.toNat y.toNat n ≤ rules.survivalMax)
       else decide (countNeighbors grid x.toNat y.toNat n = rules.birthCount)) := by
  show cellAt (mkGrid n _) x y = _
  rw [cellAt_mkGrid n _ x y hx0 hxn hy0 hyn]

/-- `grid` is an `n × n` matrix. -/
def isSquareGrid (grid : Grid) (n : ℕ) : Prop :=
  grid.length = n ∧ ∀ row ∈ grid, row.length = n

/-! ### C1: the evolution step applies the rule cell-wise -/

/-- C1.  For every `n × n` grid, rule set and in-range cell `(x, y)`, the
stepped grid has `(x, y)` alive iff the input cell is alive and the Moore
neighbour count `k` satisfies `survivalMin ≤ k ≤ survivalMax`, or the input
cell is dead and `k = birthCount`. -/
theorem getNextGeneration_cell_rule (grid : Grid) (rules : Rules) (n : ℕ)
    (hsq : isSquareGrid grid n) (x y : ℕ) (hx : x < n) (hy : y < n) :
    cellAt (getNextGeneration grid rules n) x y = true ↔
      ((cellAt grid x y = true ∧
          rules.survivalMin ≤ countNeighbors grid x y n ∧
          countNeighbors grid x y n ≤ rules.survivalMax) ∨
        (cellAt grid x y = false ∧
          countNeighbors grid x y n = rules.birthCount)) := by
  clear hsq
  rw [cellAt_getNextGeneration grid rules n x y (Int.natCast_nonneg x)
    (by exact_mod_cast hx) (Int.natCast_nonneg y) (by exact_mod_cast hy)]
  simp only [Int.toNat_natCast]
  cases h : cellAt grid x y <;> simp [h]

/-- Witness for C1 at a concrete input: the classic 2×2 block is a still
life under Conway's rules; we check its corner cell. -/
theorem getNextGeneration_cell_rule_witness :
    cellAt (getNextGeneration [[true, true, false], [true, true, false],
      [false, false, false]] ⟨2, 3, 3⟩ 3) 0 0 = true ↔
      ((cellAt [[true, true, false], [true, true, false], [false, false, false]] 0 0 = true ∧
          (2 : ℕ) ≤ countNeighbors [[true, true, false], [true, true, false],
            [false, false, false]] 0 0 3 ∧
          countNeighbors [[true, true, false], [true, true, false],
            [false, false, false]] 0 0 3 ≤ 3) ∨
        (cellAt [[true, true, false], [true, true, false], [false, false, false]] 0 0 = false ∧
          countNeighbors [[true, true, false], [true, true, false],
            [false, false, false]] 0 0 3 = 3)) :=
  getNextGeneration_cell_rule
    [[true, true, false], [true, true, false], [false, false, false]]
    ⟨2, 3, 3⟩ 3 ⟨rfl, by decide⟩ 0 0 (by decide) (by decide)

/-! ### C2: `countNeighbors` counts alive Moore neighbours, no wraparound -/

/-- Spec side: the Moore neighbourhood of `(x, y)`, i.e. the positions at
Chebyshev distance exactly 1 — the 3×3 box around `(x, y)` minus its
centre. -/
def mooreNeighborhood (x y : ℤ) : Finset (ℤ × ℤ) :=
  (Finset.Icc (x - 1) (x + 1) ×ˢ Finset.Icc (y - 1) (y + 1)).erase (x, y)

/-- Spec side: the number of alive cells among the Moore positions of
`(x, y)` that lie inside `[0, n) × [0, n)`; out-of-range positions are
skipped rather than wrapped. -/
def mooreAliveCount (grid : Grid) (x y n : ℤ) : ℕ :=
  ((mooreNeighborhood x y).filter fun p =>
    0 ≤ p.1 ∧ p.1 < n ∧ 0 ≤ p.2 ∧ p.2 < n ∧ cellAt grid p.1 p.2).card

theorem mooreNeighborhood_eq (x y : ℤ) :
    mooreNeighborhood x y =
      {(x - 1, y - 1), (x - 1, y), (x - 1, y + 1), (x, y - 1),
       (x, y + 1), (x + 1, y - 1), (x + 1, y), (x + 1, y + 1)} := by
  ext p
  obtain ⟨a, b⟩ := p
  simp only [mooreNeighborhood, Finset.mem_erase, Finset.mem_product, Finset.mem_Icc,
    Finset.mem_insert, Finset.mem_singleton, Prod.mk.injEq, ne_eq]
  omega

theorem countNeighbors_eq_mooreAliveCount (grid : Grid) (x y n : ℤ) :
    countNeighbors grid x y n = mooreAliveCount grid x y n := by
  rw [mooreAliveCount, mooreNeighborhood_eq, Finset.card_filter]
  rw [Finset.sum_insert (by simp only [Finset.mem_insert, Finset.mem_singleton,
    Prod.mk.injEq, not_or]; omega)]
  rw [Finset.sum_insert (by simp only [Finset.mem_insert, Finset.mem_singleton,
    Prod.mk.injEq, not_or]; omega)]
  rw [Finset.sum_insert (by simp only [Finset.mem_insert, Finset.mem_singleton,
    Prod.mk.injEq, not_or]; omega)]
  rw [Finset.sum_insert (by simp only [Finset.mem_insert, Finset.mem_singleton,
    Prod.mk.injEq, not_or]; omega)]
  rw [Finset.sum_insert (by simp only [Finset.mem_insert, Finset.mem_singleton,
    Prod.mk.injEq, not_or]; omega)]
  rw [Finset.sum_insert (by simp only [Finset.mem_insert, Finset.mem_singleton,
    Prod.mk.injEq, not_or]; omega)]
  rw [Finset.sum_insert (by simp only [Finset.mem_singleton, Prod.mk.injEq, not_or]; omega)]
  rw [Finset.sum_singleton]
  simp only [countNeighbors, mooreOffsets, List.map_cons, List.map_nil, List.sum_cons,
    List.sum_nil, add_zero, sub_eq_add_neg]

/-- An `n × n` all-alive grid (the "full grid" of the spec's test). -/
def fullGrid (n : ℕ) : Grid :=
  List.replicate n (List.replicate n true)

theorem cellAt_createEmptyGrid (n : ℕ) (x y : ℤ) :
    cellAt (createEmptyGrid n) x y = false := by
  have hrow : ∀ i : ℕ, (List.replicate n (List.replicate n false)).getD i [] = [] ∨
      (List.replicate n (List.replicate n false)).getD i [] = List.replicate n false := by
    intro i
    rw [List.getD_eq_getElem?_getD, List.getElem?_replicate]
    split <;> simp
  have hcell : ∀ i : ℕ, (List.replicate n false).getD i false = false := by
    intro i
    rw [List.getD_eq_getElem?_getD, List.getElem?_replicate]
    split <;> simp
  rw [cellAt, createEmptyGrid]
  rcases hrow x.toNat with h | h <;> rw [h]
  · rfl
  · exact hcell y.toNat

theorem cellAt_fullGrid (n : ℕ) (x y : ℤ) :
    cellAt (fullGrid n) x y = decide (x.toNat < n ∧ y.toNat < n) := by
  by_cases hx : x.toNat < n
  · have hrow : (List.replicate n (List.replicate n true)).getD x.toNat [] =
        List.replicate n true := by
      rw [List.getD_eq_getElem?_getD, List.getElem?_replicate, if_pos hx]
      rfl
    rw [cellAt, fullGrid, hrow, List.getD_eq_getElem?_getD, List.getElem?_replicate]
    by_cases hy : y.toNat < n
    · simp [hx, hy]
    · simp [hx, hy]
  · have hrow : (List.replicate n (List.replicate n true)).getD x.toNat [] = [] := by
      rw [List.getD_eq_getElem?_getD, List.getElem?_replicate, if_neg hx]
      rfl
    rw [cellAt, fullGrid, hrow]
    simp [hx]

theorem countNeighbors_createEmptyGrid (n : ℕ) (x y : ℤ) :
    countNeighbors (createEmptyGrid n) x y n = 0 := by
  simp [countNeighbors, mooreOffsets, cellAt_createEmptyGrid]

theorem countNeighbors_fullGrid_interior (n x y : ℕ)
    (hx1 : 1 ≤ x) (hx2 : x + 1 < n) (hy1 : 1 ≤ y) (hy2 : y + 1 < n) :
    countNeighbors (fullGrid n) x y n = 8 := by
  simp only [countNeighbors, mooreOffsets, List.map_cons, List.map_nil, List.sum_cons,
    List.sum_nil, add_zero, cellAt_fullGrid, decide_eq_true_eq]
  split_ifs <;> omega

theorem countNeighbors_fullGrid_edge (n x y : ℕ)
    (hx : x < n) (hy : y < n) (hedge : x = 0 ∨ x + 1 = n ∨ y = 0 ∨ y + 1 = n) :
    countNeighbors (fullGrid n) x y n < 8 := by
  simp only [countNeighbors, mooreOffsets, List.map_cons, List.map_nil, List.sum_cons,
    List.sum_nil, add_zero, cellAt_fullGrid, decide_eq_true_eq]
  split_ifs <;> omega

/-- C2.  `countNeighbors` equals the number of alive cells among the
in-range Moore positions (outside positions skipped, not wrapped); on an
all-dead grid it is 0 everywhere, and on an all-alive `n × n` grid it is 8
at interior cells and less than 8 at edge or corner cells. -/
theorem countNeighbors_spec :
    (∀ (grid : Grid) (x y n : ℤ), countNeighbors grid x y n = mooreAliveCount grid x y n)
    ∧ (∀ (n : ℕ) (x y : ℤ), countNeighbors (createEmptyGrid n) x y n = 0)
    ∧ (∀ n x y : ℕ, 1 ≤ x → x + 1 < n → 1 ≤ y → y + 1 < n →
        countNeighbors (fullGrid n) x y n = 8)
    ∧ (∀ n x y : ℕ, x < n → y < n → (x = 0 ∨ x + 1 = n ∨ y = 0 ∨ y + 1 = n) →
        countNeighbors (fullGrid n) x y n < 8) :=
  ⟨countNeighbors_eq_mooreAliveCount, countNeighbors_createEmptyGrid,
    countNeighbors_fullGrid_interior, countNeighbors_fullGrid_edge⟩

/-- Witness for C2 at concrete inputs: centre and corner of a full 3×3
grid. -/
theorem countNeighbors_spec_witness :
    countNeighbors (fullGrid 3) 1 1 3 = 8 ∧ countNeighbors (fullGrid 3) 0 0 3 < 8 :=
  ⟨countNeighbors_spec.2.2.1 3 1 1 (by decide) (by decide) (by decide) (by decide),
    countNeighbors_spec.2.2.2 3 0 0 (by decide) (by decide) (Or.inl rfl)⟩

/-! ### C5: the stability metric -/

/-- `calculateStability(history)`: 0 with fewer than 10 samples, else
`max(0, 1 − variance/100)` where the variance accumulates the squared
deviations of the last 10 samples from their mean (the source recomputes
the identical mean expression inside each reduction step). -/
def calculateStability (history : List ℚ) : ℚ :=
  if history.length < 10 then 0
  else
    let recent := history.drop (history.length - 10)
    let variance :=
      (recent.foldl (fun acc val => acc + (val - recent.sum / recent.length) ^ 2) 0) /
        recent.length
    max 0 (1 - variance / 100)

/-- Spec side: population variance — the mean of the squared deviations
from the mean. -/
def populationVariance (l : List ℚ) : ℚ :=
  ((l.map fun v => (v - l.sum / l.length) ^ 2).sum) / l.length

theorem foldl_add_map {α : Type} (f : α → ℚ) (l : List α) (init : ℚ) :
    l.foldl (fun acc v => acc + f v) init = init + (l.map f).sum := by
  induction l generalizing init with
  | nil => simp
  | cons a t ih =>
    simp only [List.foldl_cons, List.map_cons, List.sum_cons, ih]
    ring

/-- C5.  With fewer than 10 samples the stability metric is 0; otherwise it
is `max(0, 1 − v/100)` for `v` the population variance of the most recent
10 samples. -/
theorem calculateStability_spec :
    (∀ history : List ℚ, history.length < 10 → calculateStability history = 0)
    ∧ (∀ history : List ℚ, 10 ≤ history.length →
        calculateStability history =
          max 0 (1 - populationVariance (history.drop (history.length - 10)) / 100)) := by
  constructor
  · intro history h
    rw [calculateStability, if_pos h]
  · intro history h
    rw [calculateStability, if_neg (by omega)]
    simp only [foldl_add_map, zero_add, populationVariance]

/-- Witness for C5: a singleton history (too short) gives 0, and a
ten-sample history matches the variance formula. -/
theorem calculateStability_spec_witness :
    calculateStability [4] = 0 ∧
      calculateStability [1, 2, 3, 4, 5, 6, 7, 8, 9, 10] =
        max 0 (1 - populationVariance
          ([1, 2, 3, 4, 5, 6, 7, 8, 9, 10].drop
            ([1, 2, 3, 4, 5, 6, 7, 8, 9, (10 : ℚ)].length - 10)) / 100) :=
  ⟨calculateStability_spec.1 [4] (by decide),
    calculateStability_spec.2 [1, 2, 3, 4, 5, 6, 7, 8, 9, 10] (by decide)⟩

/-! ### C6: the signature-similarity function -/

/-- `calculateSimilarity(sig1, sig2)`.  The returned value is the JS number
the source computes, with `none` standing for `NaN`: when both signatures
are empty, `Math.max()` of the empty spread is `-Infinity`, the combined
average is `0/0 = NaN`, the `avgVal === 0` guard fails, and
`Math.max(0, 1 − (−∞)/NaN)` is `NaN`. -/
def calculateSimilarity (sig1 sig2 : List ℤ) : Option ℚ :=
  if sig1.length ≠ sig2.length then some 0
  else
    match ((sig1.zip sig2).map fun p => |p.1 - p.2|).max? with
    | none => none
    | some maxDiff =>
      let avgVal : ℚ := ((sig1.sum + sig2.sum : ℤ) : ℚ) / ((sig1.length * 2 : ℕ) : ℚ)
      if avgVal = 0 then some (if maxDiff = 0 then 1 else 0)
      else some (max 0 (1 - (maxDiff : ℚ) / avgVal))

/-- Spec side: `max(0, 1 − maxDiff/avg)` with `maxDiff` the maximum
absolute elementwise difference and `avg` the sum of all elements of both
signatures divided by their combined element count, plus the avg-0 special
case. -/
def specSimilarity (sig1 sig2 : List ℤ) : ℚ :=
  let maxDiff : ℤ := (List.zipWith (fun a b => |a - b|) sig1 sig2).foldr max 0
  let avg : ℚ := ((sig1.sum + sig2.sum : ℤ) : ℚ) / ((sig1.length + sig2.length : ℕ) : ℚ)
  if avg = 0 then (if maxDiff = 0 then 1 else 0) else max 0 (1 - (maxDiff : ℚ) / avg)

theorem zip_map_abs (l1 l2 : List ℤ) :
    ((l1.zip l2).map fun p => |p.1 - p.2|) = List.zipWith (fun a b => |a - b|) l1 l2 := by
  induction l1 generalizing l2 with
  | nil => simp
  | cons a t ih => cases l2 <;> simp [ih]

theorem max?_eq_foldr_max (l : List ℤ) (hne : l ≠ []) (hnn : ∀ a ∈ l, 0 ≤ a) :
    l.max? = some (l.foldr max 0) := by
  induction l with
  | nil => exact absurd rfl hne
  | cons a t ih =>
    rcases List.eq_nil_or_concat t with h | _
    · subst h
      simp only [List.max?_cons, List.max?_nil, Option.elim_none, List.foldr_cons,
        List.foldr_nil]
      rw [max_eq_left (hnn a (by simp))]
    · have ht : t ≠ [] := by
        intro h
        subst h
        simp_all
      rw [List.max?_cons, ih ht (fun b hb => hnn b (by simp [hb]))]
      simp only [Option.elim_some, List.foldr_cons]

/-- C6 counterexample.  On the pair of empty (equal-length, identical)
signatures the source returns `NaN` — modelled as `none` — rather than a
defined number, and in particular not 1. -/
theorem calculateSimilarity_empty_nan :
    calculateSimilarity [] [] = none ∧ calculateSimilarity [] [] ≠ some 1 := by
  constructor <;> decide

/-- C6 as amended.  For every pair of equal-length *nonempty* integer
signatures the similarity is the defined number
`max(0, 1 − maxDiff/avg)` (with the avg-0 special case), and two identical
nonempty signatures always yield exactly 1. -/
theorem calculateSimilarity_amended :
    (∀ sig1 sig2 : List ℤ, sig1.length = sig2.length → sig1 ≠ [] →
      calculateSimilarity sig1 sig2 = some (specSimilarity sig1 sig2))
    ∧ (∀ sig : List ℤ, sig ≠ [] → calculateSimilarity sig sig = some 1) := by
  have main : ∀ sig1 sig2 : List ℤ, sig1.length = sig2.length → sig1 ≠ [] →
      calculateSimilarity sig1 sig2 = some (specSimilarity sig1 sig2) := by
    intro sig1 sig2 hlen hne
    have hzne : List.zipWith (fun a b : ℤ => |a - b|) sig1 sig2 ≠ [] := by
      cases sig1 with
      | nil => exact absurd rfl hne
      | cons a t =>
        cases sig2 with
        | nil => simp at hlen
        | cons b u => simp
    have hznn : ∀ a ∈ List.zipWith (fun a b : ℤ => |a - b|) sig1 sig2, 0 ≤ a := by
      clear hlen hne hzne
      induction sig1 generalizing sig2 with
      | nil => simp
      | cons x t ih =>
        cases sig2 with
        | nil => simp
        | cons y u =>
          intro a ha
          simp only [List.zipWith_cons_cons] at ha
          rcases List.mem_cons.mp ha with h | h
          · subst h
            exact abs_nonneg _
          · exact ih u a h
    have havg : ((sig1.sum + sig2.sum : ℤ) : ℚ) / ((sig1.length * 2 : ℕ) : ℚ) =
        ((sig1.sum + sig2.sum : ℤ) : ℚ) / ((sig1.length + sig2.length : ℕ) : ℚ) := by
      rw [hlen]
      push_cast
      ring_nf
    rw [calculateSimilarity, if_neg (by omega), zip_map_abs,
      max?_eq_foldr_max _ hzne hznn]
    simp only [havg, specSimilarity]
    split_ifs <;> rfl
  refine ⟨main, fun sig hne => ?_⟩
  rw [main sig sig rfl hne]
  clear hne
  have hz : List.zipWith (fun a b : ℤ => |a - b|) sig sig =
      List.replicate sig.length 0 := by
    induction sig with
    | nil => simp
    | cons a t ih => simp [ih, List.replicate_succ]
  have hmd : (List.zipWith (fun a b : ℤ => |a - b|) sig sig).foldr max 0 = 0 := by
    rw [hz]
    induction sig.length with
    | zero => simp
    | succ n ih => rw [List.replicate_succ, List.foldr_cons, ih, max_self]
  rw [specSimilarity]
  simp only [hmd]
  split_ifs with h
  · simp
  · simp

/-- Witness for C6's amended theorem at concrete inputs. -/
theorem calculateSimilarity_amended_witness :
    calculateSimilarity [3, 3, 3] [5, 4, 3] = some (specSimilarity [3, 3, 3] [5, 4, 3]) ∧
      calculateSimilarity [48, 56, 48] [48, 56, 48] = some 1 :=
  ⟨calculateSimilarity_amended.1 [3, 3, 3] [5, 4, 3] rfl (by decide),
    calculateSimilarity_amended.2 [48, 56, 48] (by decide)⟩

/-! ### C7: the historical matcher -/

/-- Population count of a grid: `grid.flat().filter(cell => cell).length`. -/
def countAlive (g : Grid) : ℕ :=
  (g.flatten.filter fun c => c).length

/-- A catalog entry (`FAMOUS_PATTERNS` element): name, 3-generation
population signature, description (the optional `discoveredBy`/`year`
display fields are omitted). -/
structure FamousPattern where
  name : String
  signature : List ℤ
  description : String
deriving Repr

def FAMOUS_PATTERNS : List FamousPattern :=
  [⟨"Glider", [5, 4, 3], "The first discovered spaceship that travels diagonally"⟩,
   ⟨"Blinker", [3, 3, 3], "The simplest oscillator with period 2"⟩,
   ⟨"Toad", [6, 6, 6], "A period-2 oscillator shaped like a toad"⟩,
   ⟨"Beacon", [6, 8, 6], "A period-2 oscillator that flashes like a beacon"⟩,
   ⟨"Pulsar", [48, 56, 48], "A period-3 oscillator discovered early in Game of Life research"⟩]

/-- One produced match; `similarity` carries the JS number computed by
`calculateSimilarity` (`none` = `NaN`, which never occurs on the length-3
signatures used here). -/
structure HistoricalMatch where
  name : String
  similarity : Option ℚ
  description : String
deriving Repr

/-- The similarity value of a match (the kept matches always carry
`some`). -/
def simVal (m : HistoricalMatch) : ℚ :=
  m.similarity.getD 0

/-- The filter `match.similarity > 0.7` (a JS comparison with `NaN` is
false, hence the `none → false` branch). -/
def keepsMatch (m : HistoricalMatch) : Bool :=
  match m.similarity with
  | some s => decide ((7 : ℚ) / 10 < s)
  | none => false

/-- The historical-pattern analysis effect: with fewer than 3 recorded
grids it leaves the (initially empty) match list untouched; otherwise it
builds the signature of the last 3 recorded grids, compares it with every
catalog entry, keeps similarities above 0.7, sorts descending (the JS
comparator `b.similarity - a.similarity`) and truncates to the top 3. -/
def analyzeHistoricalPatterns (gridHistory : List Grid) : List HistoricalMatch :=
  if gridHistory.length < 3 then []
  else
    let recentSignature : List ℤ :=
      (gridHistory.drop (gridHistory.length - 3)).map fun g => (countAlive g : ℤ)
    let matchList := FAMOUS_PATTERNS.map fun p =>
      ({ name := p.name, similarity := calculateSimilarity recentSignature p.signature,
         description := p.description } : HistoricalMatch)
    let kept := matchList.filter keepsMatch
    (kept.mergeSort fun a b => decide (simVal b ≤ simVal a)).take 3

/-- C7.  No matches with fewer than 3 recorded grids; with at least 3, the
result is the 3-truncation of a descending-sorted permutation of exactly
the catalog comparisons (against the populations of the last 3 grids, in
chronological order) whose similarity exceeds 0.7 — so in particular at
most 3 matches are returned. -/
theorem analyzeHistoricalPatterns_spec :
    (∀ gridHistory : List Grid, gridHistory.length < 3 →
      analyzeHistoricalPatterns gridHistory = [])
    ∧ (∀ gridHistory : List Grid, 3 ≤ gridHistory.length →
        ∃ L : List HistoricalMatch,
          L.Perm ((FAMOUS_PATTERNS.map fun p =>
              ({ name := p.name,
                 similarity := calculateSimilarity
                   ((gridHistory.drop (gridHistory.length - 3)).map fun g =>
                     (countAlive g : ℤ)) p.signature,
                 description := p.description } : HistoricalMatch)).filter keepsMatch)
          ∧ L.Sorted (fun a b => simVal b ≤ simVal a)
          ∧ analyzeHistoricalPatterns gridHistory = L.take 3
          ∧ (analyzeHistoricalPatterns gridHistory).length ≤ 3) := by
  constructor
  · intro gridHistory h
    rw [analyzeHistoricalPatterns, if_pos h]
  · intro gridHistory h
    refine ⟨((FAMOUS_PATTERNS.map fun p =>
      ({ name := p.name,
         similarity := calculateSimilarity
           ((gridHistory.drop (gridHistory.length - 3)).map fun g =>
             (countAlive g : ℤ)) p.signature,
         description := p.description } : HistoricalMatch)).filter keepsMatch).mergeSort
          (fun a b => decide (simVal b ≤ simVal a)), ?_, ?_, ?_, ?_⟩
    · exact List.mergeSort_perm _ _
    · have hs := @List.sorted_mergeSort HistoricalMatch
        (fun a b : HistoricalMatch => decide (simVal b ≤ simVal a))
        (fun a b c hab hbc => by
          simp only [decide_eq_true_eq] at *
          exact le_trans hbc hab)
        (fun a b => by
          simp only [Bool.or_eq_true, decide_eq_true_eq]
          exact le_total (simVal b) (simVal a))
        ((FAMOUS_PATTERNS.map fun p =>
          ({ name := p.name,
             similarity := calculateSimilarity
               ((gridHistory.drop (gridHistory.length - 3)).map fun g =>
                 (countAlive g : ℤ)) p.signature,
             description := p.description } : HistoricalMatch)).filter keepsMatch)
      exact hs.imp fun hab => by simpa using hab
    · rw [analyzeHistoricalPatterns, if_neg (by omega)]
    · rw [analyzeHistoricalPatterns, if_neg (by omega)]
      exact List.length_take_le 3 _

/-- Witness for C7: an empty history yields no matches, and a
three-element history obeys the sorted-permutation description. -/
theorem analyzeHistoricalPatterns_spec_witness :
    analyzeHistoricalPatterns [] = [] ∧
      ∃ L : List HistoricalMatch,
        L.Perm ((FAMOUS_PATTERNS.map fun p =>
            ({ name := p.name,
               similarity := calculateSimilarity
                 ((([[[true, true, true]], [[true, true, true]],
                     [[true, true, true]]] : List Grid).drop
                   (([[[true, true, true]], [[true, true, true]],
                      [[true, true, true]]] : List Grid).length - 3)).map fun g =>
                   (countAlive g : ℤ)) p.signature,
               description := p.description } : HistoricalMatch)).filter keepsMatch)
        ∧ L.Sorted (fun a b => simVal b ≤ simVal a)
        ∧ analyzeHistoricalPatterns [[[true, true, true]], [[true, true, true]],
            [[true, true, true]]] = L.take 3
        ∧ (analyzeHistoricalPatterns [[[true, true, true]], [[true, true, true]],
            [[true, true, true]]]).length ≤ 3 :=
  ⟨analyzeHistoricalPatterns_spec.1 [] (by decide),
    analyzeHistoricalPatterns_spec.2
      [[[true, true, true]], [[true, true, true]], [[true, true, true]]] (by decide)⟩

/-! ### The evolution competition scheduler -/

/-- The numeric parts of the six predefined competition rule sets
(Conway's Classic, Replicator, Seeds, Flock, Maze, HighLife). -/
def predefinedRules : List Rules :=
  [⟨2, 3, 3⟩, ⟨1, 1, 1⟩, ⟨2, 2, 3⟩, ⟨1, 2, 3⟩, ⟨3, 4, 3⟩, ⟨2, 3, 6⟩]

/-- The competition's fixed grid dimension. -/
def gridSize : ℕ := 20

/-- The competition's generation cap. -/
def maxGenerations : ℕ := 100

structure CompetitorState where
  grid : Grid
  population : ℕ
  generation : ℕ
  maxPopulation : ℕ
  stability : ℤ
  rules : Rules
deriving Repr

/-- `initializeCompetition`: one competitor per predefined rule set; the
source draws each initial grid from `createRandomGrid`, modelled here by
the list `randomGrids` of drawn grids.  A first map builds the
zero-initialized states, a second fills in the initial population and its
high-water mark. -/
def initializeCompetition (randomGrids : List Grid) : List CompetitorState :=
  let initialCompetitors := (predefinedRules.zip randomGrids).map fun rg =>
    ({ grid := rg.2, population := 0, generation := 0, maxPopulation := 0,
       stability := 0, rules := rg.1 } : CompetitorState)
  initialCompetitors.map fun comp =>
    let pop := countAlive comp.grid
    { comp with population := pop, maxPopulation := pop }

/-- The per-competitor body of `runGeneration`'s map: a competitor at the
generation cap is returned unchanged; otherwise its grid is stepped and
its statistics updated. -/
def tickCompetitor (comp : CompetitorState) : CompetitorState :=
  if maxGenerations ≤ comp.generation then comp
  else
    let newGrid := getNextGeneration comp.grid comp.rules gridSize
    let newPop := countAlive newGrid
    let newMaxPop := max comp.maxPopulation newPop
    let popChange := |(newPop : ℤ) - (comp.population : ℤ)|
    let newStability := comp.stability + (if popChange < 5 then 1 else -2)
    { comp with grid := newGrid, population := newPop,
                generation := comp.generation + 1,
                maxPopulation := newMaxPop, stability := max 0 newStability }

theorem tickCompetitor_eq_of_le (comp : CompetitorState)
    (h : maxGenerations ≤ comp.generation) : tickCompetitor comp = comp := by
  rw [tickCompetitor, if_pos h]

theorem tickCompetitor_eq_of_lt (comp : CompetitorState)
    (h : comp.generation < maxGenerations) :
    tickCompetitor comp =
      { grid := getNextGeneration comp.grid comp.rules gridSize,
        population := countAlive (getNextGeneration comp.grid comp.rules gridSize),
        generation := comp.generation + 1,
        maxPopulation := max comp.maxPopulation
          (countAlive (getNextGeneration comp.grid comp.rules gridSize)),
        stability := max 0 (comp.stability +
          (if |(countAlive (getNextGeneration comp.grid comp.rules gridSize) : ℤ) -
                (comp.population : ℤ)| < 5 then 1 else -2)),
        rules := comp.rules } := by
  rw [tickCompetitor, if_neg (by omega)]

/-- The composite score used to determine the winner:
`maxPopulation + stability*2 + (population > 0 ? 50 : 0)`. -/
def score (c : CompetitorState) : ℤ :=
  (c.maxPopulation : ℤ) + c.stability * 2 + (if 0 < c.population then 50 else 0)

/-- The reducer `(best, current) => currentScore > bestScore ? current :
best` of the winner computation. -/
def pickBest (best current : CompetitorState) : CompetitorState :=
  if score best < score current then current else best

/-- `newCompetitors.reduce(pickBest)`: JS `reduce` without a seed folds the
tail over the first element, so the first competitor attaining the maximal
score wins. -/
def pickWinner (comps : List CompetitorState) : Option CompetitorState :=
  match comps with
  | [] => none
  | c :: rest => some (rest.foldl pickBest c)

structure CompetitionState where
  competitors : List CompetitorState
  raceComplete : Bool
  winner : Option CompetitorState
deriving Repr

def initialCompetitionState (randomGrids : List Grid) : CompetitionState :=
  { competitors := initializeCompetition randomGrids,
    raceComplete := false, winner := none }

/-- One scheduler tick (`runGeneration`): advance every competitor; when
all of them have reached the cap and the race was not already complete,
mark it complete and record the winner. -/
def runGeneration (s : CompetitionState) : CompetitionState :=
  let newCompetitors := s.competitors.map tickCompetitor
  let allComplete := newCompetitors.all fun comp => maxGenerations ≤ comp.generation
  if allComplete ∧ s.raceComplete = false then
    { competitors := newCompetitors, raceComplete := true,
      winner := pickWinner newCompetitors }
  else
    { s with competitors := newCompetitors }

/-- A scheduler state reachable from some initialization by some number of
ticks. -/
def ReachableCompetition (s : CompetitionState) : Prop :=
  ∃ (randomGrids : List Grid) (k : ℕ),
    s = runGeneration^[k] (initialCompetitionState randomGrids)

theorem mem_initializeCompetition {comp : CompetitorState} {grids : List Grid}
    (h : comp ∈ initializeCompetition grids) :
    ∃ r g, (r, g) ∈ predefinedRules.zip grids ∧
      comp = { grid := g, population := countAlive g, generation := 0,
               maxPopulation := countAlive g, stability := 0, rules := r } := by
  simp only [initializeCompetition, List.mem_map] at h
  obtain ⟨c, ⟨rg, hrg, rfl⟩, rfl⟩ := h
  exact ⟨rg.1, rg.2, hrg, rfl⟩

theorem competitors_runGeneration (s : CompetitionState) :
    (runGeneration s).competitors = s.competitors.map tickCompetitor := by
  rw [runGeneration]
  split <;> rfl

theorem stability_tickCompetitor (comp : CompetitorState) (h : 0 ≤ comp.stability) :
    0 ≤ (tickCompetitor comp).stability := by
  rcases lt_or_ge comp.generation maxGenerations with hg | hg
  · rw [tickCompetitor_eq_of_lt comp hg]
    exact le_max_left 0 _
  · rw [tickCompetitor_eq_of_le comp hg]
    exact h

/-! ### C8: the stability accumulator update and its non-negativity -/

/-- C8.  On a tick, a competitor below the generation cap has its
stability set to `max(0, old+1)` when the absolute population change is
less than 5 and to `max(0, old−2)` otherwise; consequently stability is
non-negative (as an integer) in every reachable competition state. -/
theorem competitor_stability_spec :
    (∀ comp : CompetitorState, comp.generation < maxGenerations →
      (tickCompetitor comp).stability =
        (if |(countAlive (getNextGeneration comp.grid comp.rules gridSize) : ℤ) -
              (comp.population : ℤ)| < 5
         then max 0 (comp.stability + 1) else max 0 (comp.stability - 2)))
    ∧ (∀ s : CompetitionState, ReachableCompetition s →
        ∀ comp ∈ s.competitors, 0 ≤ comp.stability) := by
  constructor
  · intro comp h
    rw [tickCompetitor_eq_of_lt comp h]
    simp only
    split_ifs
    · rfl
    · rw [sub_eq_add_neg]
  · rintro s ⟨grids, k, rfl⟩ comp hcomp
    induction k generalizing comp with
    | zero =>
      simp only [Function.iterate_zero, id_eq, initialCompetitionState] at hcomp
      obtain ⟨r, g, _, rfl⟩ := mem_initializeCompetition hcomp
      exact le_refl 0
    | succ k ih =>
      rw [Function.iterate_succ_apply', competitors_runGeneration] at hcomp
      obtain ⟨c, hcs, rfl⟩ := List.mem_map.mp hcomp
      exact stability_tickCompetitor c (ih c hcs)

/-- Witness for C8: a fresh competitor below the cap, and the initial
state of an empty competition. -/
theorem competitor_stability_spec_witness :
    ((tickCompetitor ⟨[[true]], 1, 0, 1, 0, ⟨2, 3, 3⟩⟩).stability =
        (if |(countAlive (getNextGeneration [[true]] ⟨2, 3, 3⟩ gridSize) : ℤ) - (1 : ℤ)| < 5
         then max 0 ((0 : ℤ) + 1) else max 0 ((0 : ℤ) - 2)))
      ∧ (∀ comp ∈ (initialCompetitionState []).competitors, 0 ≤ comp.stability) :=
  ⟨competitor_stability_spec.1 ⟨[[true]], 1, 0, 1, 0, ⟨2, 3, 3⟩⟩ (by decide),
    competitor_stability_spec.2 (initialCompetitionState []) ⟨[], 0, rfl⟩⟩

/-! ### C10: the population high-water mark -/

theorem maxPopulation_tickCompetitor_le (comp : CompetitorState) :
    comp.maxPopulation ≤ (tickCompetitor comp).maxPopulation := by
  rcases lt_or_ge comp.generation maxGenerations with hg | hg
  · rw [tickCompetitor_eq_of_lt comp hg]
    exact le_max_left _ _
  · rw [tickCompetitor_eq_of_le comp hg]

theorem population_le_maxPopulation_tick (comp : CompetitorState)
    (h : comp.population ≤ comp.maxPopulation) :
    (tickCompetitor comp).population ≤ (tickCompetitor comp).maxPopulation := by
  rcases lt_or_ge comp.generation maxGenerations with hg | hg
  · rw [tickCompetitor_eq_of_lt comp hg]
    exact le_max_right _ _
  · rw [tickCompetitor_eq_of_le comp hg]
    exact h

/-- C10.  In every reachable competition state, every competitor's
`maxPopulation` bounds its current population from above, and a scheduler
tick — which replaces the competitor list by its `tickCompetitor` image —
never decreases any competitor's `maxPopulation`. -/
theorem competitor_maxPopulation_spec :
    (∀ s : CompetitionState, ReachableCompetition s →
      ∀ comp ∈ s.competitors, comp.population ≤ comp.maxPopulation)
    ∧ (∀ comp : CompetitorState, comp.maxPopulation ≤ (tickCompetitor comp).maxPopulation)
    ∧ (∀ s : CompetitionState, (runGeneration s).competitors =
        s.competitors.map tickCompetitor) := by
  refine ⟨?_, maxPopulation_tickCompetitor_le, competitors_runGeneration⟩
  rintro s ⟨grids, k, rfl⟩ comp hcomp
  induction k generalizing comp with
  | zero =>
    simp only [Function.iterate_zero, id_eq, initialCompetitionState] at hcomp
    obtain ⟨r, g, _, rfl⟩ := mem_initializeCompetition hcomp
    exact le_refl _
  | succ k ih =>
    rw [Function.iterate_succ_apply', competitors_runGeneration] at hcomp
    obtain ⟨c, hcs, rfl⟩ := List.mem_map.mp hcomp
    exact population_le_maxPopulation_tick c (ih c hcs)

/-- Witness for C10: the initial state of an empty competition and a
concrete competitor. -/
theorem competitor_maxPopulation_spec_witness :
    (∀ comp ∈ (initialCompetitionState []).competitors,
      comp.population ≤ comp.maxPopulation)
      ∧ (⟨[[true]], 1, 0, 1, 0, ⟨2, 3, 3⟩⟩ : CompetitorState).maxPopulation ≤
          (tickCompetitor ⟨[[true]], 1, 0, 1, 0, ⟨2, 3, 3⟩⟩).maxPopulation :=
  ⟨competitor_maxPopulation_spec.1 (initialCompetitionState []) ⟨[], 0, rfl⟩,
    competitor_maxPopulation_spec.2.1 ⟨[[true]], 1, 0, 1, 0, ⟨2, 3, 3⟩⟩⟩

/-! ### C9: termination and winner selection -/

theorem score_le_foldl_pickBest (t : List CompetitorState) :
    ∀ c, score c ≤ score (t.foldl pickBest c) := by
  induction t with
  | nil => intro c; exact le_refl _
  | cons d t ih =>
    intro c
    have h1 : score c ≤ score (pickBest c d) := by
      rw [pickBest]
      split_ifs with h
      · exact le_of_lt h
      · exact le_refl _
    exact h1.trans (ih (pickBest c d))

theorem foldl_pickBest_first_max (t : List CompetitorState) :
    ∀ c : CompetitorState, ∃ l1 l2,
      c :: t = l1 ++ (t.foldl pickBest c) :: l2
      ∧ (∀ a ∈ l1, score a < score (t.foldl pickBest c))
      ∧ (∀ a ∈ l2, score a ≤ score (t.foldl pickBest c)) := by
  induction t with
  | nil =>
    intro c
    exact ⟨[], [], rfl, by simp, by simp⟩
  | cons d t ih =>
    intro c
    by_cases h : score c < score d
    · have hp : pickBest c d = d := by rw [pickBest, if_pos h]
      obtain ⟨l1, l2, hdec, h1, h2⟩ := ih d
      rw [List.foldl_cons, hp]
      refine ⟨c :: l1, l2, ?_, ?_, h2⟩
      · rw [List.cons_append, ← hdec]
      · intro a ha
        rcases List.mem_cons.mp ha with rfl | ha
        · exact h.trans_le (score_le_foldl_pickBest t d)
        · exact h1 a ha
    · have hp : pickBest c d = c := by rw [pickBest, if_neg h]
      obtain ⟨l1, l2, hdec, h1, h2⟩ := ih c
      rw [List.foldl_cons, hp]
      cases l1 with
      | nil =>
        simp only [List.nil_append] at hdec
        have hw : t.foldl pickBest c = c := (List.cons.injEq _ _ _ _ ▸ hdec).1.symm
        have hl2 : t = l2 := (List.cons.injEq _ _ _ _ ▸ hdec).2
        refine ⟨[], d :: l2, ?_, by simp, ?_⟩
        · rw [List.nil_append, hw, ← hl2]
        · intro a ha
          rcases List.mem_cons.mp ha with rfl | ha
          · rw [hw]
            exact le_of_not_lt h
          · exact h2 a ha
      | cons b l1' =>
        simp only [List.cons_append] at hdec
        have hb : b = c := ((List.cons.injEq _ _ _ _ ▸ hdec).1).symm
        have ht : t = l1' ++ (t.foldl pickBest c) :: l2 := (List.cons.injEq _ _ _ _ ▸ hdec).2
        refine ⟨c :: d :: l1', l2, ?_, ?_, h2⟩
        · rw [List.cons_append, List.cons_append, ← ht]
        · intro a ha
          have hc1 : score c < score (t.foldl pickBest c) := by
            have := h1 b (by simp)
            rwa [hb] at this
          rcases List.mem_cons.mp ha with rfl | ha
          · exact hc1
          · rcases List.mem_cons.mp ha with rfl | ha
            · exact (le_of_not_lt h).trans_lt hc1
            · exact h1 a (by simp [ha])

theorem pickWinner_spec (comps : List CompetitorState) (h : comps ≠ []) :
    ∃ w l1 l2, pickWinner comps = some w ∧ comps = l1 ++ w :: l2
      ∧ (∀ a ∈ l1, score a < score w) ∧ (∀ a ∈ l2, score a ≤ score w)
      ∧ (∀ a ∈ comps, score a ≤ score w) := by
  cases comps with
  | nil => exact absurd rfl h
  | cons c rest =>
    obtain ⟨l1, l2, hdec, h1, h2⟩ := foldl_pickBest_first_max rest c
    refine ⟨rest.foldl pickBest c, l1, l2, rfl, hdec, h1, h2, ?_⟩
    intro a ha
    rw [hdec] at ha
    rcases List.mem_append.mp ha with ha | ha
    · exact le_of_lt (h1 a ha)
    · rcases List.mem_cons.mp ha with rfl | ha
      · exact le_refl _
      · exact h2 a ha

theorem competitors_length_iterate (s : CompetitionState) (k : ℕ) :
    (runGeneration^[k] s).competitors.length = s.competitors.length := by
  induction k with
  | zero => rfl
  | succ k ih =>
    rw [Function.iterate_succ_apply', competitors_runGeneration, List.length_map, ih]

theorem length_initializeCompetition (grids : List Grid) (h : grids.length = 6) :
    (initializeCompetition grids).length = 6 := by
  simp [initializeCompetition, predefinedRules, h]

theorem generation_iterate (grids : List Grid) :
    ∀ k : ℕ, k ≤ maxGenerations →
      ∀ comp ∈ (runGeneration^[k] (initialCompetitionState grids)).competitors,
        comp.generation = k := by
  intro k
  induction k with
  | zero =>
    intro _ comp h
    simp only [Function.iterate_zero, id_eq, initialCompetitionState] at h
    obtain ⟨r, g, _, rfl⟩ := mem_initializeCompetition h
    rfl
  | succ k ih =>
    intro hk comp h
    rw [Function.iterate_succ_apply', competitors_runGeneration] at h
    obtain ⟨c, hc, rfl⟩ := List.mem_map.mp h
    have hg := ih (by omega) c hc
    rw [tickCompetitor_eq_of_lt c (by omega)]
    show c.generation + 1 = k + 1
    omega

theorem raceComplete_iterate_false (grids : List Grid) (hg : grids.length = 6) :
    ∀ k : ℕ, k < maxGenerations →
      (runGeneration^[k] (initialCompetitionState grids)).raceComplete = false := by
  intro k
  induction k with
  | zero => intro _; rfl
  | succ k ih =>
    intro hk
    rw [Function.iterate_succ_apply']
    have hlen : (runGeneration^[k] (initialCompetitionState grids)).competitors.length = 6 := by
      rw [competitors_length_iterate]
      exact length_initializeCompetition grids hg
    have hgen : ∀ comp ∈ (runGeneration^[k]
        (initialCompetitionState grids)).competitors.map tickCompetitor,
        comp.generation = k + 1 := by
      intro comp h
      refine generation_iterate grids (k + 1) (by omega) comp ?_
      rw [Function.iterate_succ_apply', competitors_runGeneration]
      exact h
    obtain ⟨c0, hc0⟩ : ∃ c, c ∈ (runGeneration^[k]
        (initialCompetitionState grids)).competitors.map tickCompetitor := by
      apply List.exists_mem_of_ne_nil
      intro hnil
      rw [List.map_eq_nil_iff] at hnil
      rw [hnil] at hlen
      simp at hlen
    have hall : ((runGeneration^[k] (initialCompetitionState grids)).competitors.map
        tickCompetitor).all (fun comp => maxGenerations ≤ comp.generation) = false := by
      rw [List.all_eq_false]
      refine ⟨c0, hc0, ?_⟩
      have := hgen c0 hc0
      simp only [decide_eq_true_eq]
      omega
    rw [runGeneration, if_neg]
    · exact ih (by omega)
    · intro hcond
      rw [hall] at hcond
      exact Bool.false_ne_true hcond.1

set_option maxRecDepth 4000 in
set_option maxHeartbeats 1000000 in
/-- C9.  With 6 competitors and the cap of 100 generations, after exactly
100 ticks every competitor's generation is 100 and the scheduler is in its
terminal race-complete state; the recorded winner splits the competitor
list so that everything before it scores strictly less and everything
after it scores at most as much (hence the winner has maximal score and is
the earliest competitor attaining it); and a competitor at the cap is left
entirely unchanged by a further tick. -/
theorem competitionScheduler_spec :
    ∀ randomGrids : List Grid, randomGrids.length = 6 →
      (∀ comp ∈ (runGeneration^[100] (initialCompetitionState randomGrids)).competitors,
        comp.generation = 100)
      ∧ (runGeneration^[100] (initialCompetitionState randomGrids)).raceComplete = true
      ∧ (∃ w l1 l2,
          (runGeneration^[100] (initialCompetitionState randomGrids)).winner = some w
          ∧ (runGeneration^[100] (initialCompetitionState randomGrids)).competitors
              = l1 ++ w :: l2
          ∧ (∀ c ∈ l1, score c < score w)
          ∧ (∀ c ∈ l2, score c ≤ score w)
          ∧ (∀ c ∈ (runGeneration^[100]
              (initialCompetitionState randomGrids)).competitors, score c ≤ score w))
      ∧ (∀ comp : CompetitorState, maxGenerations ≤ comp.generation →
          tickCompetitor comp = comp) := by
  intro grids hg
  have hmax : maxGenerations = 100 := rfl
  have hgen : ∀ comp ∈ (runGeneration^[100]
      (initialCompetitionState grids)).competitors, comp.generation = 100 :=
    generation_iterate grids 100 (le_refl _)
  have hcomps : (runGeneration^[100] (initialCompetitionState grids)).competitors =
      (runGeneration^[99] (initialCompetitionState grids)).competitors.map
        tickCompetitor := by
    rw [Function.iterate_succ_apply', competitors_runGeneration]
  have hall : ((runGeneration^[99] (initialCompetitionState grids)).competitors.map
      tickCompetitor).all (fun comp => maxGenerations ≤ comp.generation) = true := by
    rw [List.all_eq_true]
    intro c hc
    have : c.generation = 100 := hgen c (by rw [hcomps]; exact hc)
    simp only [decide_eq_true_eq]
    omega
  have hrace : (runGeneration^[99] (initialCompetitionState grids)).raceComplete =
      false := raceComplete_iterate_false grids hg 99 (by omega)
  have hstep : runGeneration^[100] (initialCompetitionState grids) =
      { competitors := (runGeneration^[99]
          (initialCompetitionState grids)).competitors.map tickCompetitor,
        raceComplete := true,
        winner := pickWinner ((runGeneration^[99]
          (initialCompetitionState grids)).competitors.map tickCompetitor) } := by
    rw [Function.iterate_succ_apply', runGeneration]
    rw [if_pos ⟨hall, hrace⟩]
  have hlen : (runGeneration^[100] (initialCompetitionState grids)).competitors.length
      = 6 := by
    rw [competitors_length_iterate]
    exact length_initializeCompetition grids hg
  have hne : (runGeneration^[99] (initialCompetitionState grids)).competitors.map
      tickCompetitor ≠ [] := by
    intro hnil
    rw [← hcomps, ← List.length_eq_zero] at hnil
    omega
  obtain ⟨w, l1, l2, hwin, hdec, h1, h2, hle⟩ := pickWinner_spec _ hne
  have hraceT : (runGeneration^[100] (initialCompetitionState grids)).raceComplete =
      true := by rw [hstep]
  have hwinner : (runGeneration^[100] (initialCompetitionState grids)).winner =
      pickWinner ((runGeneration^[99]
        (initialCompetitionState grids)).competitors.map tickCompetitor) := by
    rw [hstep]
  refine ⟨hgen, hraceT, ⟨w, l1, l2, ?_, ?_, h1, h2, ?_⟩, ?_⟩
  · rw [hwinner]
    exact hwin
  · rw [hcomps]
    exact hdec
  · intro c hc
    rw [hcomps] at hc
    exact hle c hc
  · intro comp h
    exact tickCompetitor_eq_of_le comp h

/-- Witness for C9: six empty 1×1 grids reach the terminal race-complete
state after 100 ticks. -/
theorem competitionScheduler_spec_witness :
    (runGeneration^[100] (initialCompetitionState
        [[[false]], [[false]], [[false]], [[false]], [[false]], [[false]]])).raceComplete
      = true :=
  (competitionScheduler_spec
    [[[false]], [[false]], [[false]], [[false]], [[false]], [[false]]] (by decide)).2.1

/-! ### C3: the Blinker oscillates with period 2 -/

/-- Conway's classic rule set `{2, 3, 3}`. -/
def classicRules : Rules := ⟨2, 3, 3⟩

/-- A horizontal Blinker: the three cells `(r, c), (r, c+1), (r, c+2)`
alive in an otherwise dead `n × n` grid. -/
def blinkerH (n r c : ℕ) : Grid :=
  mkGrid n fun x y => decide (x = r ∧ (y = c ∨ y = c + 1 ∨ y = c + 2))

/-- A vertical Blinker: the three cells `(r, c), (r+1, c), (r+2, c)` alive
in an otherwise dead `n × n` grid. -/
def blinkerV (n r c : ℕ) : Grid :=
  mkGrid n fun x y => decide ((x = r ∨ x = r + 1 ∨ x = r + 2) ∧ y = c)

theorem mkGrid_ext (n : ℕ) (f g : ℕ → ℕ → Bool)
    (h : ∀ x, x < n → ∀ y, y < n → f x y = g x y) : mkGrid n f = mkGrid n g := by
  unfold mkGrid
  apply List.map_congr_left
  intro x hx
  apply List.map_congr_left
  intro y hy
  exact h x (List.mem_range.mp hx) y (List.mem_range.mp hy)

theorem indicator_mkGrid (n : ℕ) (f : ℕ → ℕ → Bool) (a b : ℤ) :
    (if 0 ≤ a ∧ a < (n : ℤ) ∧ 0 ≤ b ∧ b < (n : ℤ) ∧ cellAt (mkGrid n f) a b
     then (1 : ℕ) else 0)
      = (if 0 ≤ a ∧ a < (n : ℤ) ∧ 0 ≤ b ∧ b < (n : ℤ) ∧ f a.toNat b.toNat = true
         then (1 : ℕ) else 0) := by
  by_cases h : 0 ≤ a ∧ a < (n : ℤ) ∧ 0 ≤ b ∧ b < (n : ℤ)
  · obtain ⟨h1, h2, h3, h4⟩ := h
    rw [cellAt_mkGrid n f a b h1 h2 h3 h4]
  · rw [if_neg (by tauto), if_neg (by tauto)]

theorem countNeighbors_mkGrid (n : ℕ) (f : ℕ → ℕ → Bool) (x y : ℤ) :
    countNeighbors (mkGrid n f) x y n =
      (mooreOffsets.map fun d =>
        if 0 ≤ x + d.1 ∧ x + d.1 < (n : ℤ) ∧ 0 ≤ y + d.2 ∧ y + d.2 < (n : ℤ) ∧
            f (x + d.1).toNat (y + d.2).toNat = true
        then (1 : ℕ) else 0).sum := by
  simp only [countNeighbors]
  congr 1
  apply List.map_congr_left
  intro d _
  exact indicator_mkGrid n f (x + d.1) (y + d.2)

/-- Evaluation of the neighbour count around a horizontal Blinker at row
`r+1`, columns `c..c+2`: each Moore offset is rewritten to the plain
arithmetic condition for the probed cell to be one of the three alive
cells (the interiority hypotheses discharge the bounds checks). -/
theorem countNeighbors_blinkerH_eval (n r c x y : ℕ) (hr : r + 3 ≤ n) (hc : c + 3 ≤ n) :
    countNeighbors (blinkerH n (r + 1) c) x y n =
      ((if x = r + 2 ∧ (y = c + 1 ∨ y = c + 2 ∨ y = c + 3) then (1 : ℕ) else 0) +
       ((if x = r + 2 ∧ (y = c ∨ y = c + 1 ∨ y = c + 2) then (1 : ℕ) else 0) +
        ((if x = r + 2 ∧ (y + 1 = c ∨ y + 1 = c + 1 ∨ y + 1 = c + 2) then (1 : ℕ) else 0) +
         ((if x = r + 1 ∧ (y = c + 1 ∨ y = c + 2 ∨ y = c + 3) then (1 : ℕ) else 0) +
          ((if x = r + 1 ∧ (y + 1 = c ∨ y + 1 = c + 1 ∨ y + 1 = c + 2) then (1 : ℕ) else 0) +
           ((if x = r ∧ (y = c + 1 ∨ y = c + 2 ∨ y = c + 3) then (1 : ℕ) else 0) +
            ((if x = r ∧ (y = c ∨ y = c + 1 ∨ y = c + 2) then (1 : ℕ) else 0) +
             ((if x = r ∧ (y + 1 = c ∨ y + 1 = c + 1 ∨ y + 1 = c + 2) then (1 : ℕ) else 0) +
              0)))))))) := by
  rw [blinkerH, countNeighbors_mkGrid]
  simp only [mooreOffsets, List.map_cons, List.map_nil, List.sum_cons, List.sum_nil,
    decide_eq_true_eq]
  congr 1
  · exact if_congr (by omega) rfl rfl
  congr 1
  · exact if_congr (by omega) rfl rfl
  congr 1
  · exact if_congr (by omega) rfl rfl
  congr 1
  · exact if_congr (by omega) rfl rfl
  congr 1
  · exact if_congr (by omega) rfl rfl
  congr 1
  · exact if_congr (by omega) rfl rfl
  congr 1
  · exact if_congr (by omega) rfl rfl
  congr 1
  · exact if_congr (by omega) rfl rfl

/-- Evaluation of the neighbour count around a vertical Blinker at rows
`r..r+2`, column `c+1` (same scheme as `countNeighbors_blinkerH_eval`). -/
theorem countNeighbors_blinkerV_eval (n r c x y : ℕ) (hr : r + 3 ≤ n) (hc : c + 3 ≤ n) :
    countNeighbors (blinkerV n r (c + 1)) x y n =
      ((if (x = r + 1 ∨ x = r + 2 ∨ x = r + 3) ∧ y = c + 2 then (1 : ℕ) else 0) +
       ((if (x = r + 1 ∨ x = r + 2 ∨ x = r + 3) ∧ y = c + 1 then (1 : ℕ) else 0) +
        ((if (x = r + 1 ∨ x = r + 2 ∨ x = r + 3) ∧ y + 1 = c + 1 then (1 : ℕ) else 0) +
         ((if (x = r ∨ x = r + 1 ∨ x = r + 2) ∧ y = c + 2 then (1 : ℕ) else 0) +
          ((if (x = r ∨ x = r + 1 ∨ x = r + 2) ∧ y + 1 = c + 1 then (1 : ℕ) else 0) +
           ((if (x + 1 = r ∨ x + 1 = r + 1 ∨ x + 1 = r + 2) ∧ y = c + 2 then (1 : ℕ) else 0) +
            ((if (x + 1 = r ∨ x + 1 = r + 1 ∨ x + 1 = r + 2) ∧ y = c + 1 then (1 : ℕ) else 0) +
             ((if (x + 1 = r ∨ x + 1 = r + 1 ∨ x + 1 = r + 2) ∧ y + 1 = c + 1
               then (1 : ℕ) else 0) + 0)))))))) := by
  rw [blinkerV, countNeighbors_mkGrid]
  simp only [mooreOffsets, List.map_cons, List.map_nil, List.sum_cons, List.sum_nil,
    decide_eq_true_eq]
  congr 1
  · exact if_congr (by omega) rfl rfl
  congr 1
  · exact if_congr (by omega) rfl rfl
  congr 1
  · exact if_congr (by omega) rfl rfl
  congr 1
  · exact if_congr (by omega) rfl rfl
  congr 1
  · exact if_congr (by omega) rfl rfl
  congr 1
  · exact if_congr (by omega) rfl rfl
  congr 1
  · exact if_congr (by omega) rfl rfl
  congr 1
  · exact if_congr (by omega) rfl rfl

theorem blinkerH_step (n r c : ℕ) (hr : r + 3 ≤ n) (hc : c + 3 ≤ n) :
    getNextGeneration (blinkerH n (r + 1) c) classicRules n = blinkerV n r (c + 1) := by
  show mkGrid n _ = mkGrid n _
  apply mkGrid_ext
  intro x hx y hy
  have hcellAt := cellAt_mkGrid n
    (fun x y => decide (x = r + 1 ∧ (y = c ∨ y = c + 1 ∨ y = c + 2))) x y
    (Int.natCast_nonneg x) (by exact_mod_cast hx)
    (Int.natCast_nonneg y) (by exact_mod_cast hy)
  simp only [Int.toNat_natCast] at hcellAt
  by_cases hcell : x = r + 1 ∧ (y = c ∨ y = c + 1 ∨ y = c + 2)
  · rw [if_pos (show cellAt (blinkerH n (r + 1) c) x y = true by
      rw [blinkerH, hcellAt]; exact decide_eq_true hcell)]
    refine decide_eq_decide.mpr ?_
    rw [countNeighbors_blinkerH_eval n r c x y hr hc]
    show 2 ≤ _ ∧ _ ≤ 3 ↔ _
    split_ifs <;> omega
  · rw [if_neg (show ¬ cellAt (blinkerH n (r + 1) c) x y = true by
      rw [blinkerH, hcellAt]; simp [hcell])]
    refine decide_eq_decide.mpr ?_
    rw [countNeighbors_blinkerH_eval n r c x y hr hc]
    show _ = 3 ↔ _
    split_ifs <;> omega

theorem blinkerV_step (n r c : ℕ) (hr : r + 3 ≤ n) (hc : c + 3 ≤ n) :
    getNextGeneration (blinkerV n r (c + 1)) classicRules n = blinkerH n (r + 1) c := by
  show mkGrid n _ = mkGrid n _
  apply mkGrid_ext
  intro x hx y hy
  have hcellAt := cellAt_mkGrid n
    (fun x y => decide ((x = r ∨ x = r + 1 ∨ x = r + 2) ∧ y = c + 1)) x y
    (Int.natCast_nonneg x) (by exact_mod_cast hx)
    (Int.natCast_nonneg y) (by exact_mod_cast hy)
  simp only [Int.toNat_natCast] at hcellAt
  by_cases hcell : (x = r ∨ x = r + 1 ∨ x = r + 2) ∧ y = c + 1
  · rw [if_pos (show cellAt (blinkerV n r (c + 1)) x y = true by
      rw [blinkerV, hcellAt]; exact decide_eq_true hcell)]
    refine decide_eq_decide.mpr ?_
    rw [countNeighbors_blinkerV_eval n r c x y hr hc]
    show 2 ≤ _ ∧ _ ≤ 3 ↔ _
    split_ifs <;> omega
  · rw [if_neg (show ¬ cellAt (blinkerV n r (c + 1)) x y = true by
      rw [blinkerV, hcellAt]; simp [hcell])]
    refine decide_eq_decide.mpr ?_
    rw [countNeighbors_blinkerV_eval n r c x y hr hc]
    show _ = 3 ↔ _
    split_ifs <;> omega

/-- C3.  Every Blinker placement — horizontal or vertical three collinear
alive cells whose Moore neighbourhoods lie strictly inside the `n × n`
grid — returns to itself after two evolution steps under Conway's classic
rules `{2, 3, 3}`. -/
theorem blinker_period_two (n r c : ℕ) :
    (1 ≤ r → r + 2 ≤ n → 1 ≤ c → c + 4 ≤ n →
      getNextGeneration (getNextGeneration (blinkerH n r c) classicRules n)
        classicRules n = blinkerH n r c)
    ∧ (1 ≤ r → r + 4 ≤ n → 1 ≤ c → c + 2 ≤ n →
      getNextGeneration (getNextGeneration (blinkerV n r c) classicRules n)
        classicRules n = blinkerV n r c) := by
  constructor
  · intro h1 h2 h3 h4
    obtain ⟨r', rfl⟩ : ∃ r', r = r' + 1 := ⟨r - 1, by omega⟩
    rw [blinkerH_step n r' c (by omega) (by omega),
      blinkerV_step n r' c (by omega) (by omega)]
  · intro h1 h2 h3 h4
    obtain ⟨c', rfl⟩ : ∃ c', c = c' + 1 := ⟨c - 1, by omega⟩
    rw [blinkerV_step n r c' (by omega) (by omega),
      blinkerH_step n r c' (by omega) (by omega)]

/-- Witness for C3: the horizontal and vertical Blinkers in a 5×5 and a
6×6 grid. -/
theorem blinker_period_two_witness :
    getNextGeneration (getNextGeneration (blinkerH 5 1 1) classicRules 5)
        classicRules 5 = blinkerH 5 1 1
      ∧ getNextGeneration (getNextGeneration (blinkerV 6 1 1) classicRules 6)
          classicRules 6 = blinkerV 6 1 1 :=
  ⟨(blinker_period_two 5 1 1).1 (by decide) (by decide) (by decide) (by decide),
    (blinker_period_two 6 1 1).2 (by decide) (by decide) (by decide) (by decide)⟩

/-! ### C4: the diversity metric counts 4-connected components -/


/-- Row-major scan order of the double loop of `calculateDiversity`:
`x` over `grid.length` rows, `y` over `grid[0].length` columns. -/
def scanOrder (grid : Grid) : List (ℤ × ℤ) :=
  (List.range grid.length).flatMap fun (x : ℕ) =>
    (List.range (grid.getD 0 []).length).map fun (y : ℕ) => ((x : ℤ), (y : ℤ))

/-- The recursive flood fill of `calculateDiversity`, with the mutable
`visited` matrix made an explicit `Finset` of coordinates.  The source
recursion terminates because every recursive call follows the marking of a
fresh cell; `fuel` bounds the recursion depth and is always used with the
sufficient value `grid.length * grid[0].length + 1`. -/
def dfs (grid : Grid) : ℕ → ℤ → ℤ → Finset (ℤ × ℤ) → Finset (ℤ × ℤ)
  | 0, _, _, visited => visited
  | fuel + 1, x, y, visited =>
    if x < 0 ∨ (grid.length : ℤ) ≤ x ∨ y < 0 ∨ ((grid.getD 0 []).length : ℤ) ≤ y ∨
        (x, y) ∈ visited ∨ ¬ cellAt grid x y
    then visited
    else
      let v1 := insert (x, y) visited
      let v2 := dfs grid fuel (x + 1) y v1
      let v3 := dfs grid fuel (x - 1) y v2
      let v4 := dfs grid fuel x (y + 1) v3
      dfs grid fuel x (y - 1) v4

/-- One step of the scan loop: an alive unvisited cell starts a new
cluster and is flood-filled. -/
def scanStep (grid : Grid) (fuel : ℕ) (st : ℕ × Finset (ℤ × ℤ)) (p : ℤ × ℤ) :
    ℕ × Finset (ℤ × ℤ) :=
  if cellAt grid p.1 p.2 ∧ p ∉ st.2
  then (st.1 + 1, dfs grid fuel p.1 p.2 st.2)
  else st

/-- `calculateDiversity`: count 4-directionally connected clusters of
alive cells by flood fill, then normalize as `min(clusters/10, 1)`. -/
def calculateDiversity (grid : Grid) : ℚ :=
  let fuel := grid.length * (grid.getD 0 []).length + 1
  let st := (scanOrder grid).foldl (scanStep grid fuel) (0, (∅ : Finset (ℤ × ℤ)))
  min ((st.1 : ℚ) / 10) 1

/-! Spec-side notions: 4-adjacency, alive cells, components. -/

/-- The position `p` lies inside the scanned `grid.length × grid[0].length`
box. -/
def inGrid (grid : Grid) (p : ℤ × ℤ) : Prop :=
  0 ≤ p.1 ∧ p.1 < (grid.length : ℤ) ∧ 0 ≤ p.2 ∧ p.2 < ((grid.getD 0 []).length : ℤ)

instance (grid : Grid) (p : ℤ × ℤ) : Decidable (inGrid grid p) := by
  unfold inGrid
  infer_instance

/-- The position `p` is an alive cell of the grid. -/
def aliveP (grid : Grid) (p : ℤ × ℤ) : Prop :=
  inGrid grid p ∧ cellAt grid p.1 p.2 = true

instance (grid : Grid) (p : ℤ × ℤ) : Decidable (aliveP grid p) := by
  unfold aliveP
  infer_instance

/-- 4-directional (up/down/left/right) adjacency. -/
def adj4 (p q : ℤ × ℤ) : Prop :=
  (p.1 = q.1 ∧ (p.2 = q.2 + 1 ∨ q.2 = p.2 + 1)) ∨
  (p.2 = q.2 ∧ (p.1 = q.1 + 1 ∨ q.1 = p.1 + 1))

instance (p q : ℤ × ℤ) : Decidable (adj4 p q) := by
  unfold adj4
  infer_instance

/-- One step between alive cells along 4-adjacency. -/
def reachStep (grid : Grid) (p q : ℤ × ℤ) : Prop :=
  aliveP grid p ∧ aliveP grid q ∧ adj4 p q

/-- Connectivity of alive cells: the reflexive-transitive closure of
`reachStep`.  A maximal connected component is a class of this relation. -/
def reach (grid : Grid) : ℤ × ℤ → ℤ × ℤ → Prop :=
  Relation.ReflTransGen (reachStep grid)

/-- The alive cells of the grid, as a finite set of positions. -/
def aliveFinset (grid : Grid) : Finset (ℤ × ℤ) :=
  (Finset.Icc (0 : ℤ) ((grid.length : ℤ) - 1) ×ˢ
    Finset.Icc (0 : ℤ) (((grid.getD 0 []).length : ℤ) - 1)).filter
    fun p => cellAt grid p.1 p.2 = true

/-- Connectivity is decided classically; `classOf` is spec-side only and
never evaluated. -/
noncomputable instance (grid : Grid) (p : ℤ × ℤ) : DecidablePred (reach grid p) :=
  fun _ => Classical.dec _

/-- The connected component of `p` (as a set of alive cells). -/
noncomputable def classOf (grid : Grid) (p : ℤ × ℤ) : Finset (ℤ × ℤ) :=
  (aliveFinset grid).filter (reach grid p)

theorem mem_classOf (grid : Grid) (p q : ℤ × ℤ) :
    q ∈ classOf grid p ↔ q ∈ aliveFinset grid ∧ reach grid p q := by
  unfold classOf
  exact Finset.mem_filter

/-- The number of maximal 4-connected components of alive cells. -/
noncomputable def componentCount (grid : Grid) : ℕ :=
  ((aliveFinset grid).image fun p => classOf grid p).card

/-- A step of a flood-fill path that avoids the already-visited set `v`. -/
def stepAvoid (grid : Grid) (v : Finset (ℤ × ℤ)) (p q : ℤ × ℤ) : Prop :=
  aliveP grid q ∧ q ∉ v ∧ adj4 p q

/-- Reachability along alive cells avoiding `v` (except possibly at the
start). -/
def reachAvoid (grid : Grid) (v : Finset (ℤ × ℤ)) : ℤ × ℤ → ℤ × ℤ → Prop :=
  Relation.ReflTransGen (stepAvoid grid v)

theorem mem_aliveFinset (grid : Grid) (p : ℤ × ℤ) :
    p ∈ aliveFinset grid ↔ aliveP grid p := by
  obtain ⟨a, b⟩ := p
  simp only [aliveFinset, Finset.mem_filter, Finset.mem_product, Finset.mem_Icc, aliveP,
    inGrid]
  constructor
  · rintro ⟨⟨⟨h1, h2⟩, h3, h4⟩, h5⟩
    exact ⟨⟨h1, by omega, h3, by omega⟩, h5⟩
  · rintro ⟨⟨h1, h2, h3, h4⟩, h5⟩
    exact ⟨⟨⟨h1, by omega⟩, h3, by omega⟩, h5⟩

theorem reachAvoid_mono (grid : Grid) {v w : Finset (ℤ × ℤ)} (hsub : v ⊆ w)
    {p q : ℤ × ℤ} (h : reachAvoid grid w p q) : reachAvoid grid v p q :=
  Relation.ReflTransGen.mono
    (fun _ _ hab => ⟨hab.1, fun hin => hab.2.1 (hsub hin), hab.2.2⟩) h

theorem adj4_cases {x y : ℤ} {b : ℤ × ℤ} (h : adj4 (x, y) b) :
    b = (x + 1, y) ∨ b = (x - 1, y) ∨ b = (x, y + 1) ∨ b = (x, y - 1) := by
  obtain ⟨b1, b2⟩ := b
  simp only [adj4, Prod.mk.injEq] at *
  omega

theorem dfs_spec (grid : Grid) :
    ∀ (fuel : ℕ) (v : Finset (ℤ × ℤ)) (x y : ℤ),
      (aliveFinset grid \ v).card < fuel →
      (v ⊆ dfs grid fuel x y v) ∧
      (∀ q ∈ dfs grid fuel x y v, q ∈ v ∨
        ((x, y) ∉ v ∧ aliveP grid (x, y) ∧ reachAvoid grid v (x, y) q)) ∧
      ((x, y) ∉ v → aliveP grid (x, y) → (x, y) ∈ dfs grid fuel x y v) ∧
      (∀ a ∈ dfs grid fuel x y v, a ∉ v →
        ∀ b, adj4 a b → aliveP grid b → b ∈ dfs grid fuel x y v) := by
  intro fuel
  induction fuel with
  | zero => intro v x y hcard; omega
  | succ f ih =>
    intro v x y hcard
    by_cases hguard : x < 0 ∨ (grid.length : ℤ) ≤ x ∨ y < 0 ∨
        ((grid.getD 0 []).length : ℤ) ≤ y ∨ (x, y) ∈ v ∨ ¬ cellAt grid x y
    · have hres : dfs grid (f + 1) x y v = v := by rw [dfs, if_pos hguard]
      rw [hres]
      refine ⟨Finset.Subset.refl v, fun q hq => Or.inl hq, ?_, ?_⟩
      · intro hnv halive
        exfalso
        obtain ⟨⟨h1, h2, h3, h4⟩, h5⟩ := halive
        rcases hguard with h | h | h | h | h | h
        · omega
        · omega
        · omega
        · omega
        · exact hnv h
        · exact h h5
      · intro a ha hav b _ _
        exact absurd ha hav
    · have hres : dfs grid (f + 1) x y v =
          dfs grid f x (y - 1) (dfs grid f x (y + 1) (dfs grid f (x - 1) y
            (dfs grid f (x + 1) y (insert (x, y) v)))) := by
        rw [dfs, if_neg hguard]
      push_neg at hguard
      obtain ⟨hx0, hxn, hy0, hyn, hPv, hcell⟩ := hguard
      have hPalive : aliveP grid (x, y) := ⟨⟨hx0, hxn, hy0, hyn⟩, hcell⟩
      have hPmem : (x, y) ∈ aliveFinset grid := (mem_aliveFinset _ _).mpr hPalive
      have hsubv1 : v ⊆ insert (x, y) v := Finset.subset_insert _ _
      have hcard1 : (aliveFinset grid \ insert (x, y) v).card < f := by
        have h1 : aliveFinset grid \ insert (x, y) v =
            (aliveFinset grid \ v).erase (x, y) := Finset.sdiff_insert _ _ _
        have h2 : (x, y) ∈ aliveFinset grid \ v := Finset.mem_sdiff.mpr ⟨hPmem, hPv⟩
        have h3 := Finset.card_pos.mpr ⟨_, h2⟩
        rw [h1, Finset.card_erase_of_mem h2]
        omega
      obtain ⟨mono1, sound1, start1, closed1⟩ := ih (insert (x, y) v) (x + 1) y hcard1
      set s1 := dfs grid f (x + 1) y (insert (x, y) v) with hs1def
      have hcard2 : (aliveFinset grid \ s1).card < f :=
        lt_of_le_of_lt (Finset.card_le_card
          (Finset.sdiff_subset_sdiff (Finset.Subset.refl _) mono1)) hcard1
      obtain ⟨mono2, sound2, start2, closed2⟩ := ih s1 (x - 1) y hcard2
      set s2 := dfs grid f (x - 1) y s1 with hs2def
      have hcard3 : (aliveFinset grid \ s2).card < f :=
        lt_of_le_of_lt (Finset.card_le_card
          (Finset.sdiff_subset_sdiff (Finset.Subset.refl _) mono2)) hcard2
      obtain ⟨mono3, sound3, start3, closed3⟩ := ih s2 x (y + 1) hcard3
      set s3 := dfs grid f x (y + 1) s2 with hs3def
      have hcard4 : (aliveFinset grid \ s3).card < f :=
        lt_of_le_of_lt (Finset.card_le_card
          (Finset.sdiff_subset_sdiff (Finset.Subset.refl _) mono3)) hcard3
      obtain ⟨mono4, sound4, start4, closed4⟩ := ih s3 x (y - 1) hcard4
      set s4 := dfs grid f x (y - 1) s3 with hs4def
      rw [hres]
      have hsub14 : s1 ⊆ s4 := fun t ht => mono4 (mono3 (mono2 ht))
      have hsub24 : s2 ⊆ s4 := fun t ht => mono4 (mono3 ht)
      have hsubv4 : v ⊆ s4 := fun t ht => hsub14 (mono1 (hsubv1 ht))
      have hsubv14 : insert (x, y) v ⊆ s4 := fun t ht => hsub14 (mono1 ht)
      have hsubv1s1 : v ⊆ s1 := fun t ht => mono1 (hsubv1 ht)
      have hsubv2 : v ⊆ s2 := fun t ht => mono2 (hsubv1s1 ht)
      have hsubv3 : v ⊆ s3 := fun t ht => mono3 (hsubv2 ht)
      refine ⟨hsubv4, ?_, ?_, ?_⟩
      · -- soundness
        intro q hq4
        have key : q ∈ v ∨ reachAvoid grid v (x, y) q := by
          rcases sound4 q hq4 with hq3 | ⟨hnv4, hal4, hre4⟩
          · rcases sound3 q hq3 with hq2 | ⟨hnv3, hal3, hre3⟩
            · rcases sound2 q hq2 with hq1 | ⟨hnv2, hal2, hre2⟩
              · rcases sound1 q hq1 with hqv1 | ⟨hnv1, hal1, hre1⟩
                · rcases Finset.mem_insert.mp hqv1 with rfl | hqv
                  · exact Or.inr Relation.ReflTransGen.refl
                  · exact Or.inl hqv
                · refine Or.inr (Relation.ReflTransGen.head
                    ⟨hal1, fun hin => hnv1 (Finset.mem_insert_of_mem hin),
                      Or.inr ⟨rfl, Or.inr rfl⟩⟩
                    (reachAvoid_mono grid hsubv1 hre1))
              · refine Or.inr (Relation.ReflTransGen.head
                  ⟨hal2, fun hin => hnv2 (hsubv1s1 hin), Or.inr ⟨rfl, Or.inl (by omega)⟩⟩
                  (reachAvoid_mono grid hsubv1s1 hre2))
            · refine Or.inr (Relation.ReflTransGen.head
                ⟨hal3, fun hin => hnv3 (hsubv2 hin), Or.inl ⟨rfl, Or.inr rfl⟩⟩
                (reachAvoid_mono grid hsubv2 hre3))
          · refine Or.inr (Relation.ReflTransGen.head
              ⟨hal4, fun hin => hnv4 (hsubv3 hin), Or.inl ⟨rfl, Or.inl (by omega)⟩⟩
              (reachAvoid_mono grid hsubv3 hre4))
        exact key.imp id fun h => ⟨hPv, hPalive, h⟩
      · -- the start cell is marked
        intro _ _
        exact hsubv14 (Finset.mem_insert_self _ _)
      · -- closure
        intro a ha hav b hadj halb
        by_cases h3 : a ∈ s3
        · by_cases h2 : a ∈ s2
          · by_cases h1 : a ∈ s1
            · by_cases h0 : a ∈ insert (x, y) v
              · rcases Finset.mem_insert.mp h0 with rfl | h0v
                · rcases adj4_cases hadj with rfl | rfl | rfl | rfl
                  · by_cases hb : (x + 1, y) ∈ insert (x, y) v
                    · exact hsub14 (mono1 hb)
                    · exact hsub14 (start1 hb halb)
                  · by_cases hb : (x - 1, y) ∈ s1
                    · exact hsub24 (mono2 hb)
                    · exact hsub24 (start2 hb halb)
                  · by_cases hb : (x, y + 1) ∈ s2
                    · exact mono4 (mono3 hb)
                    · exact mono4 (start3 hb halb)
                  · by_cases hb : (x, y - 1) ∈ s3
                    · exact mono4 hb
                    · exact start4 hb halb
                · exact absurd h0v hav
              · exact hsub14 (closed1 a h1 h0 b hadj halb)
            · exact hsub24 (closed2 a h2 h1 b hadj halb)
          · exact mono4 (closed3 a h3 h2 b hadj halb)
        · exact closed4 a ha h3 b hadj halb

theorem adj4_symm {p q : ℤ × ℤ} (h : adj4 p q) : adj4 q p := by
  obtain ⟨a, b⟩ := p
  obtain ⟨c, d⟩ := q
  simp only [adj4] at *
  omega

theorem adj4_ne {p q : ℤ × ℤ} (h : adj4 p q) : p ≠ q := by
  obtain ⟨a, b⟩ := p
  obtain ⟨c, d⟩ := q
  simp only [adj4, ne_eq, Prod.mk.injEq] at *
  omega

theorem reach_symm (grid : Grid) {p q : ℤ × ℤ} (h : reach grid p q) : reach grid q p :=
  Relation.ReflTransGen.symmetric
    (fun _ _ hab => ⟨hab.2.1, hab.1, adj4_symm hab.2.2⟩) h

theorem reach_aliveP (grid : Grid) {p q : ℤ × ℤ} (hp : aliveP grid p)
    (h : reach grid p q) : aliveP grid q := by
  induction h with
  | refl => exact hp
  | tail _ step _ => exact step.2.1

/-- `v` is closed under passing to adjacent alive cells (it is a union of
complete components). -/
def SetClosed (grid : Grid) (v : Finset (ℤ × ℤ)) : Prop :=
  ∀ a ∈ v, ∀ b, adj4 a b → aliveP grid b → b ∈ v

theorem reach_mem_closed (grid : Grid) {v : Finset (ℤ × ℤ)} (hcl : SetClosed grid v)
    {a q : ℤ × ℤ} (ha : a ∈ v) (h : reach grid a q) : q ∈ v := by
  induction h with
  | refl => exact ha
  | tail _ step ih => exact hcl _ ih _ step.2.2 step.2.1

theorem reach_of_reachAvoid (grid : Grid) {v : Finset (ℤ × ℤ)} {p q : ℤ × ℤ}
    (hp : aliveP grid p) (h : reachAvoid grid v p q) : reach grid p q := by
  induction h with
  | refl => exact Relation.ReflTransGen.refl
  | tail _ step ih =>
    exact Relation.ReflTransGen.tail ih
      ⟨reach_aliveP grid hp ih, step.1, step.2.2⟩

theorem reachAvoid_of_reach (grid : Grid) {v : Finset (ℤ × ℤ)} {p q : ℤ × ℤ}
    (hcl : SetClosed grid v) (hnp : p ∉ v) (h : reach grid p q) :
    reachAvoid grid v p q := by
  induction h with
  | refl => exact Relation.ReflTransGen.refl
  | @tail b c hab step ih =>
    refine Relation.ReflTransGen.tail ih ⟨step.2.1, ?_, step.2.2⟩
    intro hcv
    have hcp : reach grid c p :=
      reach_symm grid (Relation.ReflTransGen.tail hab step)
    exact hnp (reach_mem_closed grid hcl hcv hcp)

theorem dfs_eq_class (grid : Grid) (fuel : ℕ) (v : Finset (ℤ × ℤ)) (x y : ℤ)
    (hfuel : (aliveFinset grid \ v).card < fuel)
    (hcl : SetClosed grid v) (hal : aliveP grid (x, y)) (hnv : (x, y) ∉ v) :
    dfs grid fuel x y v = v ∪ classOf grid (x, y) := by
  obtain ⟨mono, sound, start, closed⟩ := dfs_spec grid fuel v x y hfuel
  apply Finset.Subset.antisymm
  · intro q hq
    rcases sound q hq with hqv | ⟨_, _, hre⟩
    · exact Finset.mem_union_left _ hqv
    · refine Finset.mem_union_right _ ?_
      rw [mem_classOf]
      have hreach := reach_of_reachAvoid grid hal hre
      exact ⟨(mem_aliveFinset _ _).mpr (reach_aliveP grid hal hreach), hreach⟩
  · intro q hq
    rcases Finset.mem_union.mp hq with hqv | hqc
    · exact mono hqv
    · rw [mem_classOf] at hqc
      obtain ⟨hqal, hreach⟩ := hqc
      have aux : ∀ z, reach grid (x, y) z → z ∈ dfs grid fuel x y v ∧ z ∉ v := by
        intro z hz
        induction hz with
        | refl => exact ⟨start hnv hal, hnv⟩
        | @tail b c hab step ih =>
          refine ⟨closed b ih.1 ih.2 c step.2.2 step.2.1, ?_⟩
          intro hcv
          have hcp : reach grid c (x, y) :=
            reach_symm grid (Relation.ReflTransGen.tail hab step)
          exact hnv (reach_mem_closed grid hcl hcv hcp)
      exact (aux q hreach).1

theorem classOf_subset_alive (grid : Grid) (p : ℤ × ℤ) :
    classOf grid p ⊆ aliveFinset grid :=
  Finset.filter_subset _ _

theorem mem_classOf_self (grid : Grid) {p : ℤ × ℤ} (hal : aliveP grid p) :
    p ∈ classOf grid p := by
  rw [mem_classOf]
  exact ⟨(mem_aliveFinset _ _).mpr hal, Relation.ReflTransGen.refl⟩

theorem classOf_closed (grid : Grid) (p : ℤ × ℤ) :
    SetClosed grid (classOf grid p) := by
  intro a ha b hadj halb
  rw [mem_classOf] at ha ⊢
  obtain ⟨haal, hra⟩ := ha
  refine ⟨(mem_aliveFinset _ _).mpr halb, ?_⟩
  exact Relation.ReflTransGen.tail hra
    ⟨(mem_aliveFinset _ _).mp haal, halb, hadj⟩

theorem classOf_eq_of_mem (grid : Grid) {p q : ℤ × ℤ} (hq : q ∈ classOf grid p) :
    classOf grid q = classOf grid p := by
  rw [mem_classOf] at hq
  obtain ⟨hqal, hpq⟩ := hq
  ext z
  rw [mem_classOf, mem_classOf]
  constructor
  · rintro ⟨hz, hqz⟩
    exact ⟨hz, hpq.trans hqz⟩
  · rintro ⟨hz, hpz⟩
    exact ⟨hz, (reach_symm grid hpq).trans hpz⟩

theorem image_classOf_union (grid : Grid) (v : Finset (ℤ × ℤ)) (p : ℤ × ℤ)
    (hcl : SetClosed grid v) (hnv : p ∉ v) (hal : aliveP grid p) :
    ((v ∪ classOf grid p).image (classOf grid)).card =
      (v.image (classOf grid)).card + 1 := by
  have h1 : (classOf grid p).image (classOf grid) = {classOf grid p} := by
    apply Finset.Subset.antisymm
    · intro s hs
      obtain ⟨q, hq, rfl⟩ := Finset.mem_image.mp hs
      rw [Finset.mem_singleton]
      exact classOf_eq_of_mem grid hq
    · rw [Finset.singleton_subset_iff]
      exact Finset.mem_image_of_mem _ (mem_classOf_self grid hal)
  have h2 : classOf grid p ∉ v.image (classOf grid) := by
    intro hmem
    obtain ⟨a, hav, heq⟩ := Finset.mem_image.mp hmem
    have hp : p ∈ classOf grid a := by
      rw [heq]
      exact mem_classOf_self grid hal
    have hra : reach grid a p := ((mem_classOf grid a p).mp hp).2
    exact hnv (reach_mem_closed grid hcl hav hra)
  rw [Finset.image_union, h1, Finset.union_comm, ← Finset.insert_eq,
    Finset.card_insert_of_not_mem h2]

/-- The invariant of the cluster-counting scan: the visited set is a union
of complete components of alive cells, the cluster counter counts its
components, and every alive cell is either visited or still to be
scanned. -/
def ScanInv (grid : Grid) (st : ℕ × Finset (ℤ × ℤ)) (rest : List (ℤ × ℤ)) : Prop :=
  st.2 ⊆ aliveFinset grid ∧ SetClosed grid st.2 ∧
  st.1 = (st.2.image (classOf grid)).card ∧
  ∀ p ∈ aliveFinset grid, p ∈ st.2 ∨ p ∈ rest

theorem foldl_scanStep (grid : Grid) (fuel : ℕ)
    (hfuel : (aliveFinset grid).card < fuel) :
    ∀ (l : List (ℤ × ℤ)) (st : ℕ × Finset (ℤ × ℤ)),
      (∀ p ∈ l, inGrid grid p) → ScanInv grid st l →
      ScanInv grid (l.foldl (scanStep grid fuel) st) [] := by
  intro l
  induction l with
  | nil => exact fun st _ hinv => hinv
  | cons p rest ihl =>
    intro st hin hinv
    rw [List.foldl_cons]
    apply ihl _ (fun q hq => hin q (List.mem_cons_of_mem _ hq))
    obtain ⟨hsub, hcl, hcount, hcover⟩ := hinv
    rw [scanStep]
    split_ifs with hc
    · obtain ⟨hcell, hnv⟩ := hc
      have hal : aliveP grid p := ⟨hin p (List.mem_cons_self _ _), hcell⟩
      have hfuel2 : (aliveFinset grid \ st.2).card < fuel :=
        lt_of_le_of_lt (Finset.card_le_card (Finset.sdiff_subset)) hfuel
      have hdfs : dfs grid fuel p.1 p.2 st.2 = st.2 ∪ classOf grid p :=
        dfs_eq_class grid fuel st.2 p.1 p.2 hfuel2 hcl hal hnv
      refine ⟨?_, ?_, ?_, ?_⟩
      · rw [hdfs]
        exact Finset.union_subset hsub (classOf_subset_alive grid p)
      · rw [hdfs]
        intro a ha b hadj halb
        rcases Finset.mem_union.mp ha with h | h
        · exact Finset.mem_union_left _ (hcl a h b hadj halb)
        · exact Finset.mem_union_right _ (classOf_closed grid p a h b hadj halb)
      · show st.1 + 1 = _
        rw [hdfs, image_classOf_union grid st.2 p hcl hnv hal, hcount]
      · intro q hq
        rcases hcover q hq with h | h
        · exact Or.inl (by rw [hdfs]; exact Finset.mem_union_left _ h)
        · rcases List.mem_cons.mp h with rfl | h2
          · exact Or.inl (by
              rw [hdfs]
              exact Finset.mem_union_right _ (mem_classOf_self grid hal))
          · exact Or.inr h2
    · refine ⟨hsub, hcl, hcount, ?_⟩
      intro q hq
      rcases hcover q hq with h | h
      · exact Or.inl h
      · rcases List.mem_cons.mp h with rfl | h2
        · left
          by_contra hnp
          exact hc ⟨((mem_aliveFinset grid q).mp hq).2, hnp⟩
        · exact Or.inr h2

theorem mem_scanOrder (grid : Grid) (p : ℤ × ℤ) :
    p ∈ scanOrder grid ↔ inGrid grid p := by
  obtain ⟨a, b⟩ := p
  rw [scanOrder, List.mem_flatMap]
  simp only [inGrid]
  constructor
  · rintro ⟨x, hx, hmem⟩
    rw [List.mem_map] at hmem
    obtain ⟨y, hy, heq⟩ := hmem
    rw [List.mem_range] at hx hy
    cases heq
    exact ⟨Int.natCast_nonneg x, by exact_mod_cast hx, Int.natCast_nonneg y,
      by exact_mod_cast hy⟩
  · rintro ⟨h1, h2, h3, h4⟩
    refine ⟨a.toNat, by rw [List.mem_range]; omega, ?_⟩
    rw [List.mem_map]
    refine ⟨b.toNat, by rw [List.mem_range]; omega, ?_⟩
    rw [Int.toNat_of_nonneg h1, Int.toNat_of_nonneg h3]

theorem aliveFinset_card_le (grid : Grid) :
    (aliveFinset grid).card ≤ grid.length * (grid.getD 0 []).length := by
  have h1 : (aliveFinset grid).card ≤
      (Finset.Icc (0 : ℤ) ((grid.length : ℤ) - 1) ×ˢ
        Finset.Icc (0 : ℤ) (((grid.getD 0 []).length : ℤ) - 1)).card :=
    Finset.card_filter_le _ _
  rw [Finset.card_product, Int.card_Icc, Int.card_Icc] at h1
  have h2 : ((grid.length : ℤ) - 1 + 1 - 0).toNat = grid.length := by omega
  have h3 : (((grid.getD 0 []).length : ℤ) - 1 + 1 - 0).toNat =
      (grid.getD 0 []).length := by omega
  rwa [h2, h3] at h1

theorem calculateDiversity_eq (grid : Grid) :
    calculateDiversity grid = min ((componentCount grid : ℚ) / 10) 1 := by
  have hfuel : (aliveFinset grid).card < grid.length * (grid.getD 0 []).length + 1 := by
    have := aliveFinset_card_le grid
    omega
  have hinv0 : ScanInv grid (0, (∅ : Finset (ℤ × ℤ))) (scanOrder grid) := by
    refine ⟨Finset.empty_subset _, ?_, by simp, ?_⟩
    · intro a ha
      exact absurd ha (Finset.not_mem_empty a)
    · intro p hp
      exact Or.inr ((mem_scanOrder grid p).mpr ((mem_aliveFinset grid p).mp hp).1)
  have hres := foldl_scanStep grid (grid.length * (grid.getD 0 []).length + 1) hfuel
    (scanOrder grid) (0, ∅) (fun p hp => (mem_scanOrder grid p).mp hp) hinv0
  obtain ⟨hsub, _, hcount, hcover⟩ := hres
  have hvis : ((scanOrder grid).foldl
      (scanStep grid (grid.length * (grid.getD 0 []).length + 1)) (0, ∅)).2 =
      aliveFinset grid :=
    Finset.Subset.antisymm hsub
      (fun p hp => ((hcover p hp).resolve_right (List.not_mem_nil p)))
  have hclusters : ((scanOrder grid).foldl
      (scanStep grid (grid.length * (grid.getD 0 []).length + 1)) (0, ∅)).1 =
      componentCount grid := by
    rw [hcount, hvis, componentCount]
  rw [calculateDiversity]
  show min ((((scanOrder grid).foldl
      (scanStep grid (grid.length * (grid.getD 0 []).length + 1)) (0, ∅)).1 : ℚ) / 10) 1
    = _
  rw [hclusters]

theorem componentCount_isolated (grid : Grid)
    (hiso : ∀ p ∈ aliveFinset grid, ∀ q ∈ aliveFinset grid, p ≠ q → ¬ adj4 p q) :
    componentCount grid = (aliveFinset grid).card := by
  rw [componentCount]
  have hcls : ∀ p ∈ aliveFinset grid, classOf grid p = {p} := by
    intro p hp
    apply Finset.Subset.antisymm
    · intro q hq
      obtain ⟨hqal, hreach⟩ := (mem_classOf grid p q).mp hq
      have hpq : p = q := by
        induction hreach with
        | refl => rfl
        | @tail b c hab step ih =>
          exfalso
          exact hiso b ((mem_aliveFinset grid b).mpr step.1) c
            ((mem_aliveFinset grid c).mpr step.2.1) (adj4_ne step.2.2) step.2.2
      rw [Finset.mem_singleton, ← hpq]
    · rw [Finset.singleton_subset_iff]
      exact mem_classOf_self grid ((mem_aliveFinset grid p).mp hp)
  rw [Finset.image_congr hcls]
  exact Finset.card_image_of_injOn fun a _ b _ h => Finset.singleton_inj.mp h

theorem aliveFinset_createEmptyGrid (n : ℕ) : aliveFinset (createEmptyGrid n) = ∅ := by
  ext p
  simp [aliveFinset, cellAt_createEmptyGrid]

/-- C4.  For every grid, `calculateDiversity` equals
`min(componentCount/10, 1)` where `componentCount` is the number of
maximal 4-connected components of alive cells; a grid whose alive cells
are pairwise non-adjacent has diversity `min(k/10, 1)` for `k` its number
of alive cells, and an all-dead grid has diversity 0. -/
theorem calculateDiversity_spec :
    (∀ grid : Grid, calculateDiversity grid = min ((componentCount grid : ℚ) / 10) 1)
    ∧ (∀ grid : Grid,
        (∀ p ∈ aliveFinset grid, ∀ q ∈ aliveFinset grid, p ≠ q → ¬ adj4 p q) →
        calculateDiversity grid = min (((aliveFinset grid).card : ℚ) / 10) 1)
    ∧ (∀ n : ℕ, calculateDiversity (createEmptyGrid n) = 0) := by
  refine ⟨calculateDiversity_eq, ?_, ?_⟩
  · intro grid hiso
    rw [calculateDiversity_eq, componentCount_isolated grid hiso]
  · intro n
    rw [calculateDiversity_eq]
    have h0 : componentCount (createEmptyGrid n) = 0 := by
      rw [componentCount, aliveFinset_createEmptyGrid]
      rfl
    rw [h0]
    norm_num

/-- Witness for C4: a 2×2 grid with two diagonally-placed (hence
4-isolated) alive cells. -/
theorem calculateDiversity_spec_witness :
    calculateDiversity [[true, false], [false, true]] =
      min (((aliveFinset [[true, false], [false, true]]).card : ℚ) / 10) 1 :=
  calculateDiversity_spec.2.1 [[true, false], [false, true]] (by decide)


end GoL
